import Mathlib

/-!
Shallow embedding of `src/gamestate.py` (knight-less Isolation on a 3×2 board)
and verification of the frozen claims.

Conventions of the embedding:
* Python ints are `Int`; board cell contents (0 = open, nonzero = blocked) are `Nat`.
* The board is `List (List Nat)`, indexed `_board[x][y]` exactly as in the source
  (outer list over columns `x`, inner over rows `y`).  Out-of-range reads use
  `getD` with default `0`; every read the source performs is guarded in range,
  so this only matters for ill-formed states never produced by the program.
* `forecast_move` raises `RuntimeError` in Python; here it returns
  `Except String GameState`, the `.error` branch standing for the raised error.
* The `while` loop walking one ray is `walkRay` with fuel `5 = xlim + ylim`:
  each iteration moves at least one coordinate by exactly 1 while the guard
  keeps that coordinate inside `[0, 3)` resp. `[0, 2)`, so the loop body can
  run at most 3 times; fuel 5 is therefore never exhausted
  (`walkRay_fuel_stable` below makes this exact).
* Python's `float('inf')`/`float('-inf')` fold sentinels are `⊤`/`⊥` of
  `WithBot (WithTop ℤ)`, and the returned scores `-1, 0, 1` are the embedded
  integers, so the search value type is `WithBot (WithTop ℤ)`.
-/

/-- `xlim, ylim = 3, 2` — board dimensions (module-level constants in the source). -/
def xlim : Int := 3

/-- `xlim, ylim = 3, 2` — board dimensions (module-level constants in the source). -/
def ylim : Int := 2

/-- A move / board coordinate: a pair `(column, row)` of Python ints. -/
abbrev Move := Int × Int

/-- The occupancy grid `_board[x][y]`: outer list over columns, inner over rows. -/
abbrev Board := List (List Nat)

/-- Read `_board[x][y]` (always guarded in-range where the source reads it). -/
def boardAt (b : Board) (x y : Int) : Nat :=
  (b.getD x.toNat []).getD y.toNat 0

/-- Write `_board[x][y] = 1` (only reached on coordinates in `get_legal_moves`). -/
def boardSet (b : Board) (x y : Int) : Board :=
  b.set x.toNat ((b.getD x.toNat []).set y.toNat 1)

/-- The `GameState` class: `_board`, `active_player` (0 or 1), and
`_player_locations` (a 2-element list of `None`-or-coordinate). -/
structure GameState where
  board : Board
  active_player : Nat
  player_locations : List (Option Move)
deriving DecidableEq, Repr

/-- `GameState.__init__`: all-open `xlim × ylim` board, lower-right corner
`_board[-1][-1]` blocked, `active_player = 0`, both players unplaced. -/
def GameState.init : GameState :=
  let b : Board := List.replicate xlim.toNat (List.replicate ylim.toNat 0)
  { board := b.set (xlim.toNat - 1) ((b.getD (xlim.toNat - 1) []).set (ylim.toNat - 1) 1)
    active_player := 0
    player_locations := [none, none] }

/-- `_get_blank_spaces`: `[(x, y) for y in range(ylim) for x in range(xlim)
if self._board[x][y] == 0]` — outer loop over rows `y`, inner over columns `x`. -/
def GameState.get_blank_spaces (s : GameState) : List Move :=
  (List.range ylim.toNat).flatMap fun (y : Nat) =>
    (List.range xlim.toNat).filterMap fun (x : Nat) =>
      if boardAt s.board (x : Int) (y : Int) = 0 then some ((x : Int), (y : Int)) else none

/-- The eight ray directions `(dx, dy)`, in the source's fixed order. -/
def rays : List (Int × Int) :=
  [(1, 0), (1, -1), (0, -1), (-1, -1), (-1, 0), (-1, 1), (0, 1), (1, 1)]

/-- The `while` loop of `get_legal_moves` for one ray `(dx, dy)` from `(x, y)`:
step while `0 ≤ x + dx < xlim` and `0 ≤ y + dy < ylim`, stop at the first
blocked cell, collect the open cells passed.  `fuel` bounds the iteration
count; `xlim + ylim = 5` is always enough (`walkRay_fuel_stable`). -/
def walkRay (b : Board) (dx dy : Int) : Int → Int → Nat → List Move
  | _, _, 0 => []
  | x, y, fuel + 1 =>
    if 0 ≤ x + dx ∧ x + dx < xlim ∧ 0 ≤ y + dy ∧ y + dy < ylim then
      if boardAt b (x + dx) (y + dy) ≠ 0 then
        []
      else
        (x + dx, y + dy) :: walkRay b dx dy (x + dx) (y + dy) fuel
    else []

/-- `get_legal_moves`: blank spaces when the active player is unplaced,
otherwise the 8 ray walks from the current location, concatenated in ray
order. -/
def GameState.get_legal_moves (s : GameState) : List Move :=
  match s.player_locations.getD s.active_player none with
  | none => s.get_blank_spaces
  | some loc =>
      rays.flatMap fun d => walkRay s.board d.1 d.2 loc.1 loc.2 (xlim + ylim).toNat

/-- The successful branch of `forecast_move`: deep-copy, block the target cell,
move the active player there, flip `active_player` with `^= 1`. -/
def GameState.apply_move (s : GameState) (move : Move) : GameState :=
  { board := boardSet s.board move.1 move.2
    active_player := s.active_player ^^^ 1
    player_locations := s.player_locations.set s.active_player (some move) }

/-- `forecast_move`: raise `RuntimeError("Attempted forecast of illegal move")`
when `move not in self.get_legal_moves()`, else return the updated copy. -/
def GameState.forecast_move (s : GameState) (move : Move) : Except String GameState :=
  if move ∉ s.get_legal_moves then
    .error "Attempted forecast of illegal move"
  else
    .ok (s.apply_move move)

/-- `terminal_test(gameState)`: `not bool(gameState.get_legal_moves())`. -/
def terminal_test (gameState : GameState) : Bool :=
  gameState.get_legal_moves.isEmpty

/-- The search value type: Python floats restricted to `{-1, 0, 1, ±inf}`. -/
abbrev Val := WithBot (WithTop ℤ)

/-- Embed an integer score into the search value type. -/
def iv (z : ℤ) : Val := ((z : WithTop ℤ) : Val)

mutual

/-- `min_value(gameState, depth)`: `+1` on a terminal state, `0` at the depth
cutoff, else the fold `v = min(v, max_value(forecast_move(m), depth - 1))`
over the legal moves, starting from `v = float('inf') = ⊤`. -/
def min_value (gameState : GameState) (depth : Int) : Val :=
  if terminal_test gameState then iv 1
  else if depth ≤ 0 then iv 0
  else
    gameState.get_legal_moves.foldl
      (fun v m => min v (max_value (gameState.apply_move m) (depth - 1))) ⊤
termination_by depth.toNat
decreasing_by simp_wf; omega

/-- `max_value(gameState, depth)`: `-1` on a terminal state, `0` at the depth
cutoff, else the fold `v = max(v, min_value(forecast_move(m), depth - 1))`
over the legal moves, starting from `v = float('-inf') = ⊥`. -/
def max_value (gameState : GameState) (depth : Int) : Val :=
  if terminal_test gameState then iv (-1)
  else if depth ≤ 0 then iv 0
  else
    gameState.get_legal_moves.foldl
      (fun v m => max v (min_value (gameState.apply_move m) (depth - 1))) ⊥
termination_by depth.toNat
decreasing_by simp_wf; omega

end

/-- `minimax_decision(gameState, depth)`: fold over the legal moves keeping
`(best_score, best_move)`, starting from `(float('-inf'), None)`, replacing
on strict `>` only; returns `best_move`. -/
def minimax_decision (gameState : GameState) (depth : Int) : Option Move :=
  (gameState.get_legal_moves.foldl
    (fun acc m =>
      let v := min_value (gameState.apply_move m) (depth - 1)
      if acc.1 < v then (v, some m) else acc)
    ((⊥ : Val), (none : Option Move))).2

/-! ## Spec-side definitions (for the refinement claim C3)

These two enumerations are written from the words of the spec (§4.1
`get_legal_moves`), to be compared with the source-side definition. -/

/-- Whether a coordinate lies on the board: column in `[0, W)`, row in `[0, H)`. -/
def onBoard (c : Move) : Prop :=
  0 ≤ c.1 ∧ c.1 < xlim ∧ 0 ≤ c.2 ∧ c.2 < ylim

instance (c : Move) : Decidable (onBoard c) := by unfold onBoard; infer_instance

/-- Spec §4.1, unplaced active player: "every open cell on the board …
for each row top-to-bottom, for each column left-to-right". -/
def specUnplacedMoves (b : Board) : List Move :=
  (List.range ylim.toNat).flatMap fun (row : Nat) =>
    ((List.range xlim.toNat).map fun (col : Nat) => ((col : Int), (row : Int))).filter
      fun c => boardAt b c.1 c.2 = 0

/-- Spec §4.1: the fixed ray order
"(+col), (+col,−row), (−row), (−col,−row), (−col), (−col,+row), (+row), (+col,+row)". -/
def specRays : List (Int × Int) :=
  [(1, 0), (1, -1), (0, -1), (-1, -1), (-1, 0), (-1, 1), (0, 1), (1, 1)]

/-- Spec §4.1, one ray from `loc` in direction `d`: the cells at distances
`1, 2, …` along the ray, "in order of increasing distance", cut off as soon
as a cell "would cross a blocked cell or leave the board".  Distances beyond
`xlim + ylim` can never stay on the board for a nonzero direction, so the
enumeration below is exhaustive. -/
def specRayMoves (b : Board) (loc : Move) (d : Int × Int) : List Move :=
  ((List.range (xlim + ylim).toNat).map fun k =>
      (loc.1 + ((k : Int) + 1) * d.1, loc.2 + ((k : Int) + 1) * d.2)).takeWhile
    fun c => decide (onBoard c) && decide (boardAt b c.1 c.2 = 0)

/-- Spec §4.1, placed active player: the eight ray enumerations from the
current position, concatenated in the spec's fixed ray order. -/
def specPlacedMoves (b : Board) (loc : Move) : List Move :=
  specRays.flatMap fun d => specRayMoves b loc d

/-! ## Helper lemmas: folds with `min` / `max` over `Val` -/

/-- The three finite scores the search can produce. -/
def IsScore (v : Val) : Prop := v = iv (-1) ∨ v = iv 0 ∨ v = iv 1

instance (v : Val) : Decidable (IsScore v) := by unfold IsScore; infer_instance

theorem foldl_min_le_init {α : Type} (f : α → Val) :
    ∀ (l : List α) (a : Val), l.foldl (fun v m => min v (f m)) a ≤ a := by
  intro l
  induction l with
  | nil => intro a; simp
  | cons b l ih =>
    intro a
    calc (b :: l).foldl (fun v m => min v (f m)) a
        = l.foldl (fun v m => min v (f m)) (min a (f b)) := rfl
      _ ≤ min a (f b) := ih _
      _ ≤ a := min_le_left _ _

theorem foldl_min_le {α : Type} (f : α → Val) :
    ∀ (l : List α) (a : Val) (m : α), m ∈ l →
      l.foldl (fun v m => min v (f m)) a ≤ f m := by
  intro l
  induction l with
  | nil => intro a m hm; cases hm
  | cons b l ih =>
    intro a m hm
    rcases List.mem_cons.1 hm with h | h
    · subst h
      calc (m :: l).foldl (fun v m => min v (f m)) a
          = l.foldl (fun v m => min v (f m)) (min a (f m)) := rfl
        _ ≤ min a (f m) := foldl_min_le_init f l _
        _ ≤ f m := min_le_right _ _
    · exact ih _ m h

theorem foldl_min_eq_init_or {α : Type} (f : α → Val) :
    ∀ (l : List α) (a : Val),
      l.foldl (fun v m => min v (f m)) a = a ∨
      ∃ m ∈ l, l.foldl (fun v m => min v (f m)) a = f m := by
  intro l
  induction l with
  | nil => intro a; exact .inl rfl
  | cons b l ih =>
    intro a
    have hstep : (b :: l).foldl (fun v m => min v (f m)) a
        = l.foldl (fun v m => min v (f m)) (min a (f b)) := rfl
    rcases ih (min a (f b)) with h | ⟨m, hm, h⟩
    · rcases min_choice a (f b) with hc | hc
      · exact .inl (by rw [hstep, h, hc])
      · exact .inr ⟨b, List.mem_cons_self .., by rw [hstep, h, hc]⟩
    · exact .inr ⟨m, List.mem_cons_of_mem _ hm, by rw [hstep, h]⟩

theorem foldl_min_P {α : Type} (P : Val → Prop) (f : α → Val) :
    ∀ (l : List α) (a : Val), P a → (∀ m ∈ l, P (f m)) →
      P (l.foldl (fun v m => min v (f m)) a) := by
  intro l
  induction l with
  | nil => intro a ha _; exact ha
  | cons b l ih =>
    intro a ha hl
    have hmin : P (min a (f b)) := by
      rcases min_choice a (f b) with hc | hc
      · rw [hc]; exact ha
      · rw [hc]; exact hl b (List.mem_cons_self ..)
    exact ih _ hmin fun m hm => hl m (List.mem_cons_of_mem _ hm)

theorem foldl_max_ge_init {α : Type} (f : α → Val) :
    ∀ (l : List α) (a : Val), a ≤ l.foldl (fun v m => max v (f m)) a := by
  intro l
  induction l with
  | nil => intro a; simp
  | cons b l ih =>
    intro a
    calc a ≤ max a (f b) := le_max_left _ _
      _ ≤ l.foldl (fun v m => max v (f m)) (max a (f b)) := ih _
      _ = (b :: l).foldl (fun v m => max v (f m)) a := rfl

theorem foldl_max_ge {α : Type} (f : α → Val) :
    ∀ (l : List α) (a : Val) (m : α), m ∈ l →
      f m ≤ l.foldl (fun v m => max v (f m)) a := by
  intro l
  induction l with
  | nil => intro a m hm; cases hm
  | cons b l ih =>
    intro a m hm
    rcases List.mem_cons.1 hm with h | h
    · subst h
      calc f m ≤ max a (f m) := le_max_right _ _
        _ ≤ l.foldl (fun v m => max v (f m)) (max a (f m)) := foldl_max_ge_init f l _
        _ = (m :: l).foldl (fun v m => max v (f m)) a := rfl
    · exact ih _ m h

theorem foldl_max_eq_init_or {α : Type} (f : α → Val) :
    ∀ (l : List α) (a : Val),
      l.foldl (fun v m => max v (f m)) a = a ∨
      ∃ m ∈ l, l.foldl (fun v m => max v (f m)) a = f m := by
  intro l
  induction l with
  | nil => intro a; exact .inl rfl
  | cons b l ih =>
    intro a
    have hstep : (b :: l).foldl (fun v m => max v (f m)) a
        = l.foldl (fun v m => max v (f m)) (max a (f b)) := rfl
    rcases ih (max a (f b)) with h | ⟨m, hm, h⟩
    · rcases max_choice a (f b) with hc | hc
      · exact .inl (by rw [hstep, h, hc])
      · exact .inr ⟨b, List.mem_cons_self .., by rw [hstep, h, hc]⟩
    · exact .inr ⟨m, List.mem_cons_of_mem _ hm, by rw [hstep, h]⟩

theorem foldl_max_P {α : Type} (P : Val → Prop) (f : α → Val) :
    ∀ (l : List α) (a : Val), P a → (∀ m ∈ l, P (f m)) →
      P (l.foldl (fun v m => max v (f m)) a) := by
  intro l
  induction l with
  | nil => intro a ha _; exact ha
  | cons b l ih =>
    intro a ha hl
    have hmax : P (max a (f b)) := by
      rcases max_choice a (f b) with hc | hc
      · rw [hc]; exact ha
      · rw [hc]; exact hl b (List.mem_cons_self ..)
    exact ih _ hmax fun m hm => hl m (List.mem_cons_of_mem _ hm)

theorem isScore_bounds {v : Val} (h : IsScore v) : ⊥ < v ∧ v < ⊤ := by
  rcases h with h | h | h <;> subst h <;> exact ⟨by decide, by decide⟩

/-! ## Helper lemmas: ray walks -/

theorem walkRay_mem {b : Board} {dx dy : Int} :
    ∀ {n : Nat} {x y : Int} {e : Move}, e ∈ walkRay b dx dy x y n →
      ∃ k : Int, 1 ≤ k ∧ e.1 = x + k * dx ∧ e.2 = y + k * dy ∧
        onBoard e ∧ boardAt b e.1 e.2 = 0 := by
  intro n
  induction n with
  | zero => intro x y e he; simp [walkRay] at he
  | succ n ih =>
    intro x y e he
    rw [walkRay] at he
    by_cases hc : 0 ≤ x + dx ∧ x + dx < xlim ∧ 0 ≤ y + dy ∧ y + dy < ylim
    · rw [if_pos hc] at he
      by_cases hb : boardAt b (x + dx) (y + dy) ≠ 0
      · rw [if_pos hb] at he; cases he
      · rw [if_neg hb] at he
        push_neg at hb
        rcases List.mem_cons.1 he with h | h
        · subst h
          exact ⟨1, le_refl 1, by ring, by ring,
            ⟨hc.1, hc.2.1, hc.2.2.1, hc.2.2.2⟩, hb⟩
        · obtain ⟨k, hk, h1, h2, hob, hcell⟩ := ih h
          exact ⟨k + 1, by omega, by rw [h1]; ring, by rw [h2]; ring, hob, hcell⟩
    · rw [if_neg hc] at he; cases he

theorem walkRay_nodup {b : Board} {dx dy : Int} (hd : ¬(dx = 0 ∧ dy = 0)) :
    ∀ (n : Nat) (x y : Int), (walkRay b dx dy x y n).Nodup := by
  intro n
  induction n with
  | zero => intro x y; simp [walkRay]
  | succ n ih =>
    intro x y
    rw [walkRay]
    by_cases hc : 0 ≤ x + dx ∧ x + dx < xlim ∧ 0 ≤ y + dy ∧ y + dy < ylim
    · rw [if_pos hc]
      by_cases hb : boardAt b (x + dx) (y + dy) ≠ 0
      · rw [if_pos hb]; exact List.nodup_nil
      · rw [if_neg hb]
        refine List.nodup_cons.2 ⟨?_, ih (x + dx) (y + dy)⟩
        intro hmem
        obtain ⟨k, hk, h1, h2, _, _⟩ := walkRay_mem hmem
        simp only at h1 h2
        have hdx : k * dx = 0 := by omega
        have hdy : k * dy = 0 := by omega
        rcases mul_eq_zero.1 hdx with h | h
        · omega
        · rcases mul_eq_zero.1 hdy with h' | h'
          · omega
          · exact hd ⟨h, h'⟩
    · rw [if_neg hc]; exact List.nodup_nil

theorem walkRay_not_start {b : Board} {dx dy : Int} (hd : ¬(dx = 0 ∧ dy = 0))
    (n : Nat) (x y : Int) : ((x, y) : Move) ∉ walkRay b dx dy x y n := by
  intro hmem
  obtain ⟨k, hk, h1, h2, _, _⟩ := walkRay_mem hmem
  simp only at h1 h2
  have hdx : k * dx = 0 := by omega
  have hdy : k * dy = 0 := by omega
  rcases mul_eq_zero.1 hdx with h | h
  · omega
  · rcases mul_eq_zero.1 hdy with h' | h'
    · omega
    · exact hd ⟨h, h'⟩

/-- Two distinct ray directions from one origin can never reach the same cell:
`k·d = k'·d'` with `k, k' ≥ 1` and components in `{-1, 0, 1}` forces `d = d'`. -/
theorem ray_dir_eq {d1 d2 e1 e2 k k' : Int} (hk : 1 ≤ k) (hk' : 1 ≤ k')
    (hd1 : -1 ≤ d1 ∧ d1 ≤ 1) (hd2 : -1 ≤ d2 ∧ d2 ≤ 1)
    (he1 : -1 ≤ e1 ∧ e1 ≤ 1) (he2 : -1 ≤ e2 ∧ e2 ≤ 1)
    (hdz : ¬(d1 = 0 ∧ d2 = 0)) (hez : ¬(e1 = 0 ∧ e2 = 0))
    (h1 : k * d1 = k' * e1) (h2 : k * d2 = k' * e2) : d1 = e1 ∧ d2 = e2 := by
  obtain ⟨hd1a, hd1b⟩ := hd1
  obtain ⟨hd2a, hd2b⟩ := hd2
  obtain ⟨he1a, he1b⟩ := he1
  obtain ⟨he2a, he2b⟩ := he2
  interval_cases d1 <;> interval_cases d2 <;> interval_cases e1 <;> interval_cases e2 <;>
    omega

theorem walkRay_disjoint {b : Board} {x y dx dy ex ey : Int} {n n' : Nat}
    (hd : -1 ≤ dx ∧ dx ≤ 1 ∧ -1 ≤ dy ∧ dy ≤ 1) (he : -1 ≤ ex ∧ ex ≤ 1 ∧ -1 ≤ ey ∧ ey ≤ 1)
    (hdz : ¬(dx = 0 ∧ dy = 0)) (hez : ¬(ex = 0 ∧ ey = 0))
    (hne : ¬(dx = ex ∧ dy = ey)) :
    List.Disjoint (walkRay b dx dy x y n) (walkRay b ex ey x y n') := by
  intro c hc hc'
  obtain ⟨k, hk, h1, h2, _, _⟩ := walkRay_mem hc
  obtain ⟨k', hk', h1', h2', _, _⟩ := walkRay_mem hc'
  have e1 : k * dx = k' * ex := by omega
  have e2 : k * dy = k' * ey := by omega
  exact hne (ray_dir_eq hk hk' ⟨hd.1, hd.2.1⟩ ⟨hd.2.2.1, hd.2.2.2⟩
    ⟨he.1, he.2.1⟩ ⟨he.2.2.1, he.2.2.2⟩ hdz hez e1 e2)


/-- If the ray leaves the board within the first `j` steps, the walk does not
depend on the fuel, as long as the fuel is at least `j`. -/
theorem walkRay_congr {b : Board} {dx dy : Int} :
    ∀ (j : Nat) (x y : Int) (n m : Nat), j ≤ n → j ≤ m →
      (∃ k : Int, 1 ≤ k ∧ k ≤ (j : Int) ∧ ¬ onBoard (x + k * dx, y + k * dy)) →
      walkRay b dx dy x y n = walkRay b dx dy x y m := by
  intro j
  induction j with
  | zero =>
    rintro x y n m _ _ ⟨k, hk1, hk2, _⟩
    exact absurd (hk1.trans hk2) (by norm_num)
  | succ j ih =>
    rintro x y n m hn hm ⟨k, hk1, hk2, hkb⟩
    obtain ⟨n', rfl⟩ : ∃ n', n = n' + 1 := ⟨n - 1, by omega⟩
    obtain ⟨m', rfl⟩ : ∃ m', m = m' + 1 := ⟨m - 1, by omega⟩
    rw [walkRay, walkRay]
    by_cases hc : 0 ≤ x + dx ∧ x + dx < xlim ∧ 0 ≤ y + dy ∧ y + dy < ylim
    · rw [if_pos hc, if_pos hc]
      by_cases hbl : boardAt b (x + dx) (y + dy) ≠ 0
      · rw [if_pos hbl, if_pos hbl]
      · rw [if_neg hbl, if_neg hbl]
        have hk1' : k ≠ 1 := by
          rintro rfl
          exact hkb (by simpa [onBoard] using hc)
        congr 1
        refine ih (x + dx) (y + dy) n' m' (by omega) (by omega)
          ⟨k - 1, by omega, by omega, ?_⟩
        have heq : (x + dx + (k - 1) * dx, y + dy + (k - 1) * dy)
            = (x + k * dx, y + k * dy) := by
          simp only [Prod.mk.injEq]
          constructor <;> ring
        rw [heq]
        exact hkb
    · rw [if_neg hc, if_neg hc]

/-- Each of the eight directions has both components in `{-1, 0, 1}` and is
not the null direction. -/
theorem rays_bounds : ∀ d ∈ rays,
    (-1 ≤ d.1 ∧ d.1 ≤ 1 ∧ -1 ≤ d.2 ∧ d.2 ≤ 1) ∧ ¬(d.1 = 0 ∧ d.2 = 0) := by
  decide

/-- Every ray direction escapes the `3 × 2` board within 4 steps from anywhere. -/
theorem ray_escape {dx dy : Int} (hd : (dx, dy) ∈ rays) (x y : Int) :
    ∃ k : Int, 1 ≤ k ∧ k ≤ ((4 : Nat) : Int) ∧ ¬ onBoard (x + k * dx, y + k * dy) := by
  obtain ⟨⟨hb1, hb2, hb3, hb4⟩, hbz⟩ := rays_bounds (dx, dy) hd
  by_contra h
  push_neg at h
  have h1 := h 1 (by norm_num) (by norm_num)
  have h4 := h 4 (by norm_num) (by norm_num)
  unfold onBoard xlim ylim at h1 h4
  simp only at h1 h4 hb1 hb2 hb3 hb4 hbz
  interval_cases dx <;> interval_cases dy <;> omega

/-- The fuel `5 = xlim + ylim` used in `get_legal_moves` is not binding: any
fuel ≥ 4 produces the same ray walk, so the embedding agrees with the
unbounded `while` loop of the source. -/
theorem walkRay_fuel_stable {b : Board} {dx dy : Int} (hd : (dx, dy) ∈ rays)
    (x y : Int) {n m : Nat} (hn : 4 ≤ n) (hm : 4 ≤ m) :
    walkRay b dx dy x y n = walkRay b dx dy x y m :=
  walkRay_congr 4 x y n m hn hm (ray_escape hd x y)

/-! ## Helper lemmas: board reads and writes -/

theorem boardAt_boardSet_same {b : Board} {mx my : Int}
    (hcol : mx.toNat < b.length) (hcell : my.toNat < (b.getD mx.toNat []).length) :
    boardAt (boardSet b mx my) mx my = 1 := by
  simp only [boardAt, boardSet, List.getD_eq_getElem?_getD] at hcell ⊢
  rw [List.getElem?_set_self hcol]
  simp only [Option.getD_some]
  rw [List.getElem?_set_self hcell]
  rfl

theorem boardAt_boardSet_other {b : Board} {mx my x y : Int}
    (h : x.toNat ≠ mx.toNat ∨ y.toNat ≠ my.toNat) :
    boardAt (boardSet b mx my) x y = boardAt b x y := by
  simp only [boardAt, boardSet, List.getD_eq_getElem?_getD]
  by_cases hx : x.toNat = mx.toNat
  · rw [hx]
    have hy : y.toNat ≠ my.toNat := by tauto
    by_cases hlen : mx.toNat < b.length
    · rw [List.getElem?_set_self hlen]
      simp only [Option.getD_some]
      rw [List.getElem?_set_ne (Ne.symm hy)]
    · rw [List.set_eq_of_length_le (by omega)]
  · rw [List.getElem?_set_ne (Ne.symm hx)]

/-- Writing a cell never unblocks any cell: occupancy is monotone. -/
theorem boardAt_boardSet_mono {b : Board} {mx my x y : Int}
    (h : boardAt b x y ≠ 0) : boardAt (boardSet b mx my) x y ≠ 0 := by
  by_cases hxy : x.toNat = mx.toNat ∧ y.toNat = my.toNat
  · obtain ⟨hx, hy⟩ := hxy
    by_cases hlen : mx.toNat < b.length
    · by_cases hcell : my.toNat < (b.getD mx.toNat []).length
      · simp only [boardAt, boardSet, List.getD_eq_getElem?_getD] at hcell ⊢
        rw [hx, hy, List.getElem?_set_self hlen]
        simp only [Option.getD_some]
        rw [List.getElem?_set_self hcell]
        simp
      · -- the inner `set` is out of range, so the write is a no-op on this cell
        simp only [boardAt, boardSet, List.getD_eq_getElem?_getD] at h hcell ⊢
        rw [hx, hy, List.getElem?_set_self hlen]
        simp only [Option.getD_some]
        rw [List.set_eq_of_length_le (by omega)]
        rw [hx, hy] at h
        exact h
    · simp only [boardAt, boardSet, List.getD_eq_getElem?_getD] at h ⊢
      rw [List.set_eq_of_length_le (by omega)]
      exact h
  · rw [boardAt_boardSet_other (by tauto)]
    exact h

/-! ## Helper lemmas: legal moves, forecast, terminal test -/

theorem xlim_toNat : xlim.toNat = 3 := rfl

theorem ylim_toNat : ylim.toNat = 2 := rfl

theorem onBoard_mk {a b : Int} : onBoard (a, b) ↔ 0 ≤ a ∧ a < 3 ∧ 0 ≤ b ∧ b < 2 :=
  Iff.rfl

theorem get_blank_spaces_mem {s : GameState} {e : Move} :
    e ∈ s.get_blank_spaces ↔
      onBoard e ∧ boardAt s.board e.1 e.2 = 0 := by
  unfold GameState.get_blank_spaces
  constructor
  · intro he
    obtain ⟨y, hy, he⟩ := List.mem_flatMap.1 he
    obtain ⟨x, hx, hcell⟩ := List.mem_filterMap.1 he
    rw [List.mem_range, ylim_toNat] at hy
    rw [List.mem_range, xlim_toNat] at hx
    by_cases hb : boardAt s.board (x : Int) (y : Int) = 0
    · rw [if_pos hb] at hcell
      obtain rfl := Option.some.inj hcell
      exact ⟨onBoard_mk.2 ⟨by omega, by omega, by omega, by omega⟩, hb⟩
    · rw [if_neg hb] at hcell; cases hcell
  · rintro ⟨hob, hb⟩
    obtain ⟨a, c⟩ := e
    obtain ⟨h1, h2, h3, h4⟩ := onBoard_mk.1 hob
    refine List.mem_flatMap.2 ⟨c.toNat, ?_, List.mem_filterMap.2 ⟨a.toNat, ?_, ?_⟩⟩
    · rw [List.mem_range, ylim_toNat]; omega
    · rw [List.mem_range, xlim_toNat]; omega
    · have hx1 : ((a.toNat : Nat) : Int) = a := Int.toNat_of_nonneg h1
      have hx2 : ((c.toNat : Nat) : Int) = c := Int.toNat_of_nonneg h3
      rw [hx1, hx2, if_pos hb]

theorem legal_moves_mem {s : GameState} {e : Move} (he : e ∈ s.get_legal_moves) :
    onBoard e ∧ boardAt s.board e.1 e.2 = 0 := by
  unfold GameState.get_legal_moves at he
  cases hl : s.player_locations.getD s.active_player none with
  | none =>
    rw [hl] at he
    exact get_blank_spaces_mem.1 he
  | some loc =>
    rw [hl] at he
    simp only [List.mem_flatMap] at he
    obtain ⟨d, _, hw⟩ := he
    obtain ⟨k, _, _, _, hob, hcell⟩ := walkRay_mem hw
    exact ⟨hob, hcell⟩

theorem forecast_move_ok_iff {s : GameState} {m : Move} {t : GameState} :
    s.forecast_move m = .ok t ↔ m ∈ s.get_legal_moves ∧ t = s.apply_move m := by
  unfold GameState.forecast_move
  by_cases h : m ∈ s.get_legal_moves
  · simp [h, eq_comm]
  · simp [h]

theorem forecast_move_error_iff {s : GameState} {m : Move} :
    s.forecast_move m = .error "Attempted forecast of illegal move" ↔
      m ∉ s.get_legal_moves := by
  unfold GameState.forecast_move
  by_cases h : m ∈ s.get_legal_moves <;> simp [h]

theorem terminal_test_iff {s : GameState} :
    terminal_test s = true ↔ s.get_legal_moves = [] := by
  unfold terminal_test
  simp [List.isEmpty_iff]

/-! ## Helper lemmas: the values of the search are always in `{-1, 0, 1}` -/

theorem value_isScore :
    ∀ (n : Nat) (s : GameState) (d : Int), d.toNat ≤ n →
      IsScore (min_value s d) ∧ IsScore (max_value s d) := by
  intro n
  induction n with
  | zero =>
    intro s d hd
    have hd0 : d ≤ 0 := by omega
    constructor
    · rw [min_value]
      by_cases ht : terminal_test s
      · rw [if_pos ht]; exact .inr (.inr rfl)
      · rw [if_neg ht, if_pos hd0]; exact .inr (.inl rfl)
    · rw [max_value]
      by_cases ht : terminal_test s
      · rw [if_pos ht]; exact .inl rfl
      · rw [if_neg ht, if_pos hd0]; exact .inr (.inl rfl)
  | succ n ih =>
    intro s d hd
    by_cases ht : terminal_test s
    · constructor
      · rw [min_value, if_pos ht]; exact .inr (.inr rfl)
      · rw [max_value, if_pos ht]; exact .inl rfl
    · by_cases hd0 : d ≤ 0
      · constructor
        · rw [min_value, if_neg ht, if_pos hd0]; exact .inr (.inl rfl)
        · rw [max_value, if_neg ht, if_pos hd0]; exact .inr (.inl rfl)
      · have hmoves : s.get_legal_moves ≠ [] := fun hnil =>
          ht (terminal_test_iff.2 hnil)
        have hrec : (d - 1).toNat ≤ n := by omega
        obtain ⟨b, l, hbl⟩ : ∃ b l, s.get_legal_moves = b :: l := by
          cases hmm : s.get_legal_moves with
          | nil => exact absurd hmm hmoves
          | cons b l => exact ⟨b, l, rfl⟩
        constructor
        · rw [min_value, if_neg ht, if_neg hd0, hbl]
          have hstep : (b :: l).foldl
              (fun v m => min v (max_value (s.apply_move m) (d - 1))) ⊤
              = l.foldl (fun v m => min v (max_value (s.apply_move m) (d - 1)))
                  (max_value (s.apply_move b) (d - 1)) := by
            simp only [List.foldl_cons]
            rw [min_eq_right le_top]
          rw [hstep]
          exact foldl_min_P IsScore _ l _ (ih (s.apply_move b) (d - 1) hrec).2
            fun m _ => (ih (s.apply_move m) (d - 1) hrec).2
        · rw [max_value, if_neg ht, if_neg hd0, hbl]
          have hstep : (b :: l).foldl
              (fun v m => max v (min_value (s.apply_move m) (d - 1))) ⊥
              = l.foldl (fun v m => max v (min_value (s.apply_move m) (d - 1)))
                  (min_value (s.apply_move b) (d - 1)) := by
            simp only [List.foldl_cons]
            rw [max_eq_right bot_le]
          rw [hstep]
          exact foldl_max_P IsScore _ l _ (ih (s.apply_move b) (d - 1) hrec).1
            fun m _ => (ih (s.apply_move m) (d - 1) hrec).1

theorem min_value_isScore (s : GameState) (d : Int) : IsScore (min_value s d) :=
  (value_isScore d.toNat s d le_rfl).1

theorem max_value_isScore (s : GameState) (d : Int) : IsScore (max_value s d) :=
  (value_isScore d.toNat s d le_rfl).2

/-! ## Refinement: the source enumerations equal the spec-side enumerations -/

theorem filterMap_if_eq_filter_map {α β : Type} (f : α → β) (p : β → Prop)
    [DecidablePred p] :
    ∀ l : List α, (l.filterMap fun x => if p (f x) then some (f x) else none)
      = (l.map f).filter fun c => decide (p c) := by
  intro l
  induction l with
  | nil => rfl
  | cons a l ih =>
    simp only [List.filterMap_cons, List.map_cons, List.filter_cons]
    by_cases h : p (f a)
    · rw [if_pos h]
      simp [h, ih]
    · rw [if_neg h]
      simp [h, ih]

theorem get_blank_spaces_eq_spec (s : GameState) :
    s.get_blank_spaces = specUnplacedMoves s.board := by
  unfold GameState.get_blank_spaces specUnplacedMoves
  have h : ∀ y : Nat,
      ((List.range xlim.toNat).filterMap fun (x : Nat) =>
        if boardAt s.board (x : Int) (y : Int) = 0
        then some ((x : Int), (y : Int)) else none)
      = (((List.range xlim.toNat).map fun (col : Nat) =>
          ((col : Int), (y : Int))).filter fun c => decide (boardAt s.board c.1 c.2 = 0)) :=
    fun y => filterMap_if_eq_filter_map
      (fun (x : Nat) => ((x : Int), (y : Int)))
      (fun c => boardAt s.board c.1 c.2 = 0) (List.range xlim.toNat)
  exact List.flatMap_congr fun y _ => h y

theorem walkRay_eq_spec (b : Board) (dx dy : Int) :
    ∀ (n : Nat) (x y : Int),
      walkRay b dx dy x y n =
      ((List.range n).map fun (k : Nat) =>
          (x + ((k : Int) + 1) * dx, y + ((k : Int) + 1) * dy)).takeWhile
        fun c => decide (onBoard c) && decide (boardAt b c.1 c.2 = 0) := by
  intro n
  induction n with
  | zero => intro x y; rfl
  | succ n ih =>
    intro x y
    rw [walkRay, List.range_succ_eq_map]
    simp only [List.map_cons, List.map_map, List.takeWhile_cons]
    simp only [Nat.cast_zero, zero_add, one_mul]
    have hmaps : (List.range n).map
          ((fun (k : Nat) => (x + ((k : Int) + 1) * dx, y + ((k : Int) + 1) * dy)) ∘ Nat.succ)
        = (List.range n).map fun (k : Nat) =>
          ((x + dx) + ((k : Int) + 1) * dx, (y + dy) + ((k : Int) + 1) * dy) := by
      apply List.map_congr_left
      intro k _
      simp only [Function.comp_apply, Prod.mk.injEq]
      constructor <;> push_cast <;> ring
    by_cases hcb : onBoard (x + dx, y + dy)
    · have hcb' : (0 : Int) ≤ x + dx ∧ x + dx < xlim ∧ 0 ≤ y + dy ∧ y + dy < ylim := hcb
      rw [if_pos hcb']
      by_cases hb : boardAt b (x + dx) (y + dy) ≠ 0
      · rw [if_pos hb]
        have : (decide (onBoard (x + dx, y + dy))
            && decide (boardAt b (x + dx, y + dy).1 (x + dx, y + dy).2 = 0)) = false := by
          simp only [Bool.and_eq_false_iff, decide_eq_false_iff_not]
          right
          exact hb
        rw [this]
        simp
      · rw [if_neg hb]
        push_neg at hb
        have : (decide (onBoard (x + dx, y + dy))
            && decide (boardAt b (x + dx, y + dy).1 (x + dx, y + dy).2 = 0)) = true := by
          simp only [Bool.and_eq_true, decide_eq_true_eq]
          exact ⟨hcb, hb⟩
        rw [this, hmaps, ih (x + dx) (y + dy)]
        simp
    · have hcb' : ¬((0 : Int) ≤ x + dx ∧ x + dx < xlim ∧ 0 ≤ y + dy ∧ y + dy < ylim) := hcb
      rw [if_neg hcb']
      have : (decide (onBoard (x + dx, y + dy))
          && decide (boardAt b (x + dx, y + dy).1 (x + dx, y + dy).2 = 0)) = false := by
        simp only [Bool.and_eq_false_iff, decide_eq_false_iff_not]
        left
        exact hcb
      rw [this]
      simp

theorem get_legal_moves_eq_spec_unplaced {s : GameState}
    (h : s.player_locations.getD s.active_player none = none) :
    s.get_legal_moves = specUnplacedMoves s.board := by
  unfold GameState.get_legal_moves
  rw [h]
  exact get_blank_spaces_eq_spec s

theorem get_legal_moves_eq_spec_placed {s : GameState} {loc : Move}
    (h : s.player_locations.getD s.active_player none = some loc) :
    s.get_legal_moves = specPlacedMoves s.board loc := by
  unfold GameState.get_legal_moves specPlacedMoves specRayMoves
  rw [h]
  apply List.flatMap_congr
  intro d _
  exact walkRay_eq_spec s.board d.1 d.2 (xlim + ylim).toNat loc.1 loc.2

/-! ## Helper lemmas: the best-move fold of `minimax_decision` -/

/-- Characterization of the `(best_score, best_move)` fold: either no move ever
beat the initial score and the accumulator survives, or the result is the
first move attaining the maximum (earlier moves are strictly worse, no move is
better, and the initial score was strictly beaten). -/
theorem minimax_fold_char (g : Move → Val) :
    ∀ (l : List Move) (a : Val) (mo : Option Move),
      (l.foldl (fun acc m => if acc.1 < g m then (g m, some m) else acc) (a, mo) = (a, mo)
        ∧ ∀ m ∈ l, g m ≤ a) ∨
      (∃ i : Fin l.length,
        l.foldl (fun acc m => if acc.1 < g m then (g m, some m) else acc) (a, mo)
          = (g (l.get i), some (l.get i)) ∧
        a < g (l.get i) ∧
        (∀ j : Fin l.length, (j : Nat) < (i : Nat) → g (l.get j) < g (l.get i)) ∧
        (∀ m ∈ l, g m ≤ g (l.get i))) := by
  intro l
  induction l with
  | nil =>
    intro a mo
    exact .inl ⟨rfl, by simp⟩
  | cons b l ih =>
    intro a mo
    by_cases hab : a < g b
    · have hstep : (b :: l).foldl (fun acc m => if acc.1 < g m then (g m, some m) else acc) (a, mo)
          = l.foldl (fun acc m => if acc.1 < g m then (g m, some m) else acc) (g b, some b) := by
        simp only [List.foldl_cons]
        rw [if_pos hab]
      rcases ih (g b) (some b) with ⟨h1, h2⟩ | ⟨i, h1, h2, h3, h4⟩
      · refine .inr ⟨⟨0, by simp⟩, ?_, ?_, ?_, ?_⟩
        · rw [hstep, h1]; rfl
        · exact hab
        · intro j hj; simp at hj
        · intro m hm
          rcases List.mem_cons.1 hm with rfl | hm
          · exact le_refl _
          · exact h2 m hm
      · refine .inr ⟨⟨(i : Nat) + 1, by simp⟩, ?_, ?_, ?_, ?_⟩
        · rw [hstep, h1]; rfl
        · exact hab.trans h2
        · intro j hj
          rcases j with ⟨j, hjl⟩
          match j, hjl with
          | 0, _ => exact h2
          | j + 1, hjl =>
            have := h3 ⟨j, by simpa using hjl⟩ (by simpa using hj)
            simpa using this
        · intro m hm
          rcases List.mem_cons.1 hm with rfl | hm
          · exact le_of_lt h2
          · exact h4 m hm
    · have hstep : (b :: l).foldl (fun acc m => if acc.1 < g m then (g m, some m) else acc) (a, mo)
          = l.foldl (fun acc m => if acc.1 < g m then (g m, some m) else acc) (a, mo) := by
        simp only [List.foldl_cons]
        rw [if_neg hab]
      push_neg at hab
      rcases ih a mo with ⟨h1, h2⟩ | ⟨i, h1, h2, h3, h4⟩
      · refine .inl ⟨by rw [hstep, h1], ?_⟩
        intro m hm
        rcases List.mem_cons.1 hm with rfl | hm
        · exact hab
        · exact h2 m hm
      · refine .inr ⟨⟨(i : Nat) + 1, by simp⟩, ?_, ?_, ?_, ?_⟩
        · rw [hstep, h1]; rfl
        · exact h2
        · intro j hj
          rcases j with ⟨j, hjl⟩
          match j, hjl with
          | 0, _ => exact lt_of_le_of_lt hab h2
          | j + 1, hjl =>
            have := h3 ⟨j, by simpa using hjl⟩ (by simpa using hj)
            simpa using this
        · intro m hm
          rcases List.mem_cons.1 hm with rfl | hm
          · exact le_of_lt (lt_of_le_of_lt hab h2)
          · exact h4 m hm

/-! ## Reachability along `forecast_move` chains, and the state invariants -/

/-- `ReachableFrom s t`: `t` arises from `s` by a (possibly empty) sequence of
successful `forecast_move` applications. -/
inductive ReachableFrom : GameState → GameState → Prop
  | refl (s : GameState) : ReachableFrom s s
  | step {s t u : GameState} (m : Move) :
      ReachableFrom s t → t.forecast_move m = .ok u → ReachableFrom s u

/-- Structural well-formedness of a state: the board is a physical `3 × 2`
grid, the player index is 0 or 1, and there are two location slots. -/
def StateWF (s : GameState) : Prop :=
  s.board.length = 3 ∧ (∀ col ∈ s.board, col.length = 2) ∧
    s.active_player < 2 ∧ s.player_locations.length = 2

instance (s : GameState) : Decidable (StateWF s) := by
  unfold StateWF
  infer_instance

/-- Every placed player stands on a blocked cell. -/
def LocInv (s : GameState) : Prop :=
  ∀ p : Nat, p < 2 → ∀ loc : Move, s.player_locations.getD p none = some loc →
    boardAt s.board loc.1 loc.2 ≠ 0

theorem stateWF_init : StateWF GameState.init := by
  refine ⟨rfl, ?_, by decide, rfl⟩
  intro col hcol
  unfold GameState.init at hcol
  simp only [xlim_toNat, ylim_toNat] at hcol
  rcases List.mem_or_eq_of_mem_set hcol with h | h
  · simp only [List.mem_replicate] at h
    rw [h.2]
    rfl
  · rw [h]
    rfl

theorem locInv_init : LocInv GameState.init := by
  intro p hp loc hloc
  have : GameState.init.player_locations.getD p none = (none : Option Move) := by
    interval_cases p <;> rfl
  rw [this] at hloc
  cases hloc

theorem stateWF_apply {s : GameState} {m : Move} (hwf : StateWF s)
    (hm : m ∈ s.get_legal_moves) : StateWF (s.apply_move m) := by
  obtain ⟨hlen, hcols, hap, hloclen⟩ := hwf
  obtain ⟨hob, hopen⟩ := legal_moves_mem hm
  refine ⟨?_, ?_, ?_, ?_⟩
  · simpa [GameState.apply_move, boardSet] using hlen
  · intro col hcol
    simp only [GameState.apply_move, boardSet] at hcol
    rcases List.mem_or_eq_of_mem_set hcol with h | h
    · exact hcols col h
    · rw [h, List.length_set]
      apply hcols
      have hx : m.1.toNat < s.board.length := by
        obtain ⟨h1, h2, _, _⟩ := hob
        unfold xlim at h2
        omega
      rw [List.getD_eq_getElem _ _ hx]
      exact List.getElem_mem hx
  · have : s.active_player = 0 ∨ s.active_player = 1 := by omega
    rcases this with h | h <;> simp [GameState.apply_move, h]
  · simpa [GameState.apply_move] using hloclen

theorem locInv_apply {s : GameState} {m : Move} (hwf : StateWF s) (hinv : LocInv s)
    (hm : m ∈ s.get_legal_moves) : LocInv (s.apply_move m) := by
  obtain ⟨hlen, hcols, hap, hloclen⟩ := hwf
  obtain ⟨hob, hopen⟩ := legal_moves_mem hm
  intro p hp loc hloc
  simp only [GameState.apply_move, List.getD_eq_getElem?_getD] at hloc
  by_cases hpe : p = s.active_player
  · subst hpe
    rw [List.getElem?_set_self (by omega)] at hloc
    obtain rfl : m = loc := Option.some.inj (by simpa using hloc)
    have hx : m.1.toNat < s.board.length := by
      obtain ⟨h1, h2, _, _⟩ := hob
      unfold xlim at h2
      omega
    have hy : m.2.toNat < (s.board.getD m.1.toNat []).length := by
      obtain ⟨_, _, h3, h4⟩ := hob
      unfold ylim at h4
      have : (s.board.getD m.1.toNat []).length = 2 := by
        apply hcols
        rw [List.getD_eq_getElem _ _ hx]
        exact List.getElem_mem hx
      omega
    show boardAt (boardSet s.board m.1 m.2) m.1 m.2 ≠ 0
    rw [boardAt_boardSet_same hx hy]
    norm_num
  · rw [List.getElem?_set_ne (fun h => hpe h.symm)] at hloc
    have hloc' : s.player_locations.getD p none = some loc := by
      rw [List.getD_eq_getElem?_getD]
      exact hloc
    exact boardAt_boardSet_mono (hinv p hp loc hloc')

theorem reachableFrom_board_mono {s t : GameState} (h : ReachableFrom s t) :
    ∀ x y : Int, boardAt s.board x y ≠ 0 → boardAt t.board x y ≠ 0 := by
  induction h with
  | refl => exact fun x y hb => hb
  | step m hst hok ih =>
    intro x y hb
    obtain ⟨hm, rfl⟩ := forecast_move_ok_iff.1 hok
    exact boardAt_boardSet_mono (ih x y hb)

theorem reachable_invariant {s : GameState} (h : ReachableFrom GameState.init s) :
    StateWF s ∧ LocInv s := by
  induction h with
  | refl => exact ⟨stateWF_init, locInv_init⟩
  | step m hst hok ih =>
    obtain ⟨hm, rfl⟩ := forecast_move_ok_iff.1 hok
    exact ⟨stateWF_apply ih.1 hm, locInv_apply ih.1 ih.2 hm⟩

/-! ## Counting blocked cells (for the frame property of `forecast_move`) -/

/-- All six cells of the board, row-major. -/
def allCells : List Move :=
  (List.range ylim.toNat).flatMap fun (y : Nat) =>
    (List.range xlim.toNat).map fun (x : Nat) => ((x : Int), (y : Int))

/-- The number of blocked cells on the board. -/
def countBlocked (b : Board) : Nat :=
  (allCells.filter fun c => decide (boardAt b c.1 c.2 ≠ 0)).length

theorem allCells_eq :
    allCells = [(0, 0), (1, 0), (2, 0), (0, 1), (1, 1), (2, 1)] := by decide

theorem allCells_nodup : allCells.Nodup := by decide

theorem mem_allCells {c : Move} : c ∈ allCells ↔ onBoard c := by
  rw [allCells_eq]
  constructor
  · intro h
    fin_cases h <;> decide
  · intro h
    obtain ⟨a, b⟩ := c
    obtain ⟨h1, h2, h3, h4⟩ := onBoard_mk.1 h
    interval_cases a <;> interval_cases b <;> decide

theorem filter_length_update {l : List Move} (hnd : l.Nodup) {m : Move} (hm : m ∈ l)
    (p q : Move → Bool) (hq : ∀ c ∈ l, c ≠ m → q c = p c)
    (hpm : p m = false) (hqm : q m = true) :
    (l.filter q).length = (l.filter p).length + 1 := by
  induction l with
  | nil => cases hm
  | cons a l ih =>
    rcases List.mem_cons.1 hm with rfl | hm'
    · have hnotin : m ∉ l := (List.nodup_cons.1 hnd).1
      have hsame : l.filter q = l.filter p := by
        apply List.filter_congr
        intro c hc
        exact hq c (List.mem_cons_of_mem _ hc) (fun h => hnotin (h ▸ hc))
      rw [List.filter_cons, List.filter_cons]
      simp only [hqm, hpm, if_true, Bool.false_eq_true, if_false, hsame, List.length_cons]
    · have hne : a ≠ m := by
        rintro rfl
        exact (List.nodup_cons.1 hnd).1 hm'
      have hqa : q a = p a := hq a (List.mem_cons_self ..) hne
      have hrec := ih (List.nodup_cons.1 hnd).2 hm'
        (fun c hc hcm => hq c (List.mem_cons_of_mem _ hc) hcm)
      rw [List.filter_cons, List.filter_cons, hqa]
      by_cases hpa : p a = true
      · simp only [hpa, if_true, List.length_cons]
        omega
      · have hpa' : p a = false := by simpa using hpa
        simp only [hpa', Bool.false_eq_true, if_false]
        exact hrec

theorem countBlocked_boardSet {b : Board} {m : Move}
    (hlen : b.length = 3) (hcols : ∀ col ∈ b, col.length = 2)
    (hob : onBoard m) (hopen : boardAt b m.1 m.2 = 0) :
    countBlocked (boardSet b m.1 m.2) = countBlocked b + 1 := by
  have hob' : 0 ≤ m.1 ∧ m.1 < xlim ∧ 0 ≤ m.2 ∧ m.2 < ylim := hob
  obtain ⟨h1, h2, h3, h4⟩ := hob'
  unfold xlim at h2
  unfold ylim at h4
  have hx : m.1.toNat < b.length := by omega
  have hy : m.2.toNat < (b.getD m.1.toNat []).length := by
    have : (b.getD m.1.toNat []).length = 2 := by
      apply hcols
      rw [List.getD_eq_getElem _ _ hx]
      exact List.getElem_mem hx
    omega
  unfold countBlocked
  apply filter_length_update allCells_nodup (mem_allCells.2 hob)
  · intro c hc hcm
    have hcob := mem_allCells.1 hc
    have hcob' : 0 ≤ c.1 ∧ c.1 < xlim ∧ 0 ≤ c.2 ∧ c.2 < ylim := hcob
    obtain ⟨g1, g2, g3, g4⟩ := hcob'
    unfold xlim at g2
    unfold ylim at g4
    have hdiff : c.1.toNat ≠ m.1.toNat ∨ c.2.toNat ≠ m.2.toNat := by
      by_contra hcon
      push_neg at hcon
      apply hcm
      obtain ⟨ca, cb⟩ := c
      obtain ⟨ma, mb⟩ := m
      simp only [Prod.mk.injEq]
      simp only at g1 g2 g3 g4 h1 h2 h3 h4 hcon
      constructor <;> omega
    rw [boardAt_boardSet_other hdiff]
  · simpa using hopen
  · simp only [decide_eq_true_eq]
    rw [boardAt_boardSet_same hx hy]
    norm_num

/-! ## Fuel-indexed search (for the termination claim)

`min_valueF`/`max_valueF` run the same recursion as `min_value`/`max_value`
but spend one unit of explicit fuel per ply and answer `none` when the fuel
runs out.  Showing they return `some` of the exact value whenever
`fuel > depth` is the termination statement: the recursion depth is bounded
by the `depth` argument alone, which decreases by exactly 1 per ply. -/

mutual

def min_valueF : Nat → GameState → Int → Option Val
  | 0, _, _ => none
  | fuel + 1, gameState, depth =>
    if terminal_test gameState then some (iv 1)
    else if depth ≤ 0 then some (iv 0)
    else
      gameState.get_legal_moves.foldl
        (fun acc m => do
          let v ← acc
          let w ← max_valueF fuel (gameState.apply_move m) (depth - 1)
          pure (min v w)) (some ⊤)

def max_valueF : Nat → GameState → Int → Option Val
  | 0, _, _ => none
  | fuel + 1, gameState, depth =>
    if terminal_test gameState then some (iv (-1))
    else if depth ≤ 0 then some (iv 0)
    else
      gameState.get_legal_moves.foldl
        (fun acc m => do
          let v ← acc
          let w ← min_valueF fuel (gameState.apply_move m) (depth - 1)
          pure (max v w)) (some ⊥)

end

theorem foldl_option_min {l : List Move} {f : Move → Val} {fo : Move → Option Val}
    (hfo : ∀ m ∈ l, fo m = some (f m)) :
    ∀ a : Val,
      l.foldl (fun acc m => do
        let v ← acc
        let w ← fo m
        pure (min v w)) (some a)
      = some (l.foldl (fun v m => min v (f m)) a) := by
  induction l with
  | nil => intro a; rfl
  | cons b l ih =>
    intro a
    simp only [List.foldl_cons]
    rw [show (do
        let v ← some a
        let w ← fo b
        pure (min v w) : Option Val) = some (min a (f b)) by
      rw [hfo b (List.mem_cons_self ..)]
      rfl]
    exact ih (fun m hm => hfo m (List.mem_cons_of_mem _ hm)) (min a (f b))

theorem foldl_option_max {l : List Move} {f : Move → Val} {fo : Move → Option Val}
    (hfo : ∀ m ∈ l, fo m = some (f m)) :
    ∀ a : Val,
      l.foldl (fun acc m => do
        let v ← acc
        let w ← fo m
        pure (max v w)) (some a)
      = some (l.foldl (fun v m => max v (f m)) a) := by
  induction l with
  | nil => intro a; rfl
  | cons b l ih =>
    intro a
    simp only [List.foldl_cons]
    rw [show (do
        let v ← some a
        let w ← fo b
        pure (max v w) : Option Val) = some (max a (f b)) by
      rw [hfo b (List.mem_cons_self ..)]
      rfl]
    exact ih (fun m hm => hfo m (List.mem_cons_of_mem _ hm)) (max a (f b))

/-- Fuel strictly greater than `depth` always suffices: the fuel-indexed
evaluators return exactly the un-fuelled values. -/
theorem valueF_eq :
    ∀ (n : Nat) (s : GameState) (d : Int), d.toNat < n →
      min_valueF n s d = some (min_value s d) ∧
      max_valueF n s d = some (max_value s d) := by
  intro n
  induction n with
  | zero => intro s d hd; omega
  | succ n ih =>
    intro s d _
    by_cases ht : terminal_test s
    · constructor
      · rw [min_valueF, min_value, if_pos ht, if_pos ht]
      · rw [max_valueF, max_value, if_pos ht, if_pos ht]
    · by_cases hd0 : d ≤ 0
      · constructor
        · rw [min_valueF, min_value, if_neg ht, if_neg ht, if_pos hd0, if_pos hd0]
        · rw [max_valueF, max_value, if_neg ht, if_neg ht, if_pos hd0, if_pos hd0]
      · have hrec : (d - 1).toNat < n := by omega
        constructor
        · rw [min_valueF, min_value, if_neg ht, if_neg ht, if_neg hd0, if_neg hd0]
          exact foldl_option_min
            (fun m _ => (ih (s.apply_move m) (d - 1) hrec).2) ⊤
        · rw [max_valueF, max_value, if_neg ht, if_neg ht, if_neg hd0, if_neg hd0]
          exact foldl_option_max
            (fun m _ => (ih (s.apply_move m) (d - 1) hrec).1) ⊥

/-! ## Characterization of the non-terminal, non-cutoff fold values -/

theorem min_value_le {s : GameState} {d : Int}
    (ht : terminal_test s = false) (hd : 0 < d) :
    ∀ m ∈ s.get_legal_moves, min_value s d ≤ max_value (s.apply_move m) (d - 1) := by
  have hti : ¬ (terminal_test s = true) := by simp [ht]
  have hd0 : ¬ d ≤ 0 := by omega
  intro m hm
  rw [min_value, if_neg hti, if_neg hd0]
  exact foldl_min_le (fun m => max_value (s.apply_move m) (d - 1))
    s.get_legal_moves ⊤ m hm

theorem min_value_attained {s : GameState} {d : Int}
    (ht : terminal_test s = false) (hd : 0 < d) :
    ∃ m ∈ s.get_legal_moves, min_value s d = max_value (s.apply_move m) (d - 1) := by
  have hti : ¬ (terminal_test s = true) := by simp [ht]
  have hd0 : ¬ d ≤ 0 := by omega
  have hunf : min_value s d = s.get_legal_moves.foldl
      (fun v m => min v (max_value (s.apply_move m) (d - 1))) ⊤ := by
    rw [min_value, if_neg hti, if_neg hd0]
  rcases foldl_min_eq_init_or (fun m => max_value (s.apply_move m) (d - 1))
      s.get_legal_moves ⊤ with h | ⟨m, hm, h⟩
  · exfalso
    have htop : min_value s d = ⊤ := hunf.trans h
    have := (isScore_bounds (min_value_isScore s d)).2
    rw [htop] at this
    exact lt_irrefl _ this
  · exact ⟨m, hm, hunf.trans h⟩

theorem max_value_ge {s : GameState} {d : Int}
    (ht : terminal_test s = false) (hd : 0 < d) :
    ∀ m ∈ s.get_legal_moves, min_value (s.apply_move m) (d - 1) ≤ max_value s d := by
  have hti : ¬ (terminal_test s = true) := by simp [ht]
  have hd0 : ¬ d ≤ 0 := by omega
  intro m hm
  rw [max_value, if_neg hti, if_neg hd0]
  exact foldl_max_ge (fun m => min_value (s.apply_move m) (d - 1))
    s.get_legal_moves ⊥ m hm

theorem max_value_attained {s : GameState} {d : Int}
    (ht : terminal_test s = false) (hd : 0 < d) :
    ∃ m ∈ s.get_legal_moves, max_value s d = min_value (s.apply_move m) (d - 1) := by
  have hti : ¬ (terminal_test s = true) := by simp [ht]
  have hd0 : ¬ d ≤ 0 := by omega
  have hunf : max_value s d = s.get_legal_moves.foldl
      (fun v m => max v (min_value (s.apply_move m) (d - 1))) ⊥ := by
    rw [max_value, if_neg hti, if_neg hd0]
  rcases foldl_max_eq_init_or (fun m => min_value (s.apply_move m) (d - 1))
      s.get_legal_moves ⊥ with h | ⟨m, hm, h⟩
  · exfalso
    have hbot : max_value s d = ⊥ := hunf.trans h
    have := (isScore_bounds (max_value_isScore s d)).1
    rw [hbot] at this
    exact lt_irrefl _ this
  · exact ⟨m, hm, hunf.trans h⟩

/-! ## The claims -/

/-- **C1**: for every non-terminal `GameState` and positive depth,
`minimax_decision` returns the first move (in `get_legal_moves` order, here
the move at index `i`) attaining the maximum of
`min_value(forecast_move(m), depth − 1)` over all legal moves: every legal
move scores no higher, every strictly earlier move scores strictly lower
(the `>` tie-break keeps the earlier move).  When `get_legal_moves()` is
empty the function returns `None`. -/
theorem C1_minimax_decision_spec (s : GameState) (d : Int) :
    (s.get_legal_moves = [] → minimax_decision s d = none) ∧
    (terminal_test s = false → 0 < d →
      (∀ m ∈ s.get_legal_moves, s.forecast_move m = .ok (s.apply_move m)) ∧
      ∃ i : Fin s.get_legal_moves.length,
        minimax_decision s d = some (s.get_legal_moves.get i) ∧
        (∀ m ∈ s.get_legal_moves,
          min_value (s.apply_move m) (d - 1)
            ≤ min_value (s.apply_move (s.get_legal_moves.get i)) (d - 1)) ∧
        (∀ j : Fin s.get_legal_moves.length, (j : Nat) < (i : Nat) →
          min_value (s.apply_move (s.get_legal_moves.get j)) (d - 1)
            < min_value (s.apply_move (s.get_legal_moves.get i)) (d - 1))) := by
  constructor
  · intro hnil
    unfold minimax_decision
    rw [hnil]
    rfl
  · intro ht _
    constructor
    · intro m hm
      exact forecast_move_ok_iff.2 ⟨hm, rfl⟩
    · have hmm : minimax_decision s d
          = (s.get_legal_moves.foldl
              (fun acc m =>
                if acc.1 < min_value (s.apply_move m) (d - 1)
                then (min_value (s.apply_move m) (d - 1), some m) else acc)
              ((⊥ : Val), (none : Option Move))).2 := rfl
      have hne : s.get_legal_moves ≠ [] := fun h => by
        rw [terminal_test_iff.2 h] at ht
        cases ht
      rcases minimax_fold_char (fun m => min_value (s.apply_move m) (d - 1))
          s.get_legal_moves ⊥ none with ⟨_, h2⟩ | ⟨i, h1, _, h3, h4⟩
      · exfalso
        obtain ⟨b, l, hbl⟩ : ∃ b l, s.get_legal_moves = b :: l := by
          cases hc : s.get_legal_moves with
          | nil => exact absurd hc hne
          | cons b l => exact ⟨b, l, rfl⟩
        have hb := h2 b (by rw [hbl]; exact List.mem_cons_self ..)
        have := (isScore_bounds (min_value_isScore (s.apply_move b) (d - 1))).1
        exact absurd (le_bot_iff.1 hb) (by
          intro hx
          rw [hx] at this
          exact lt_irrefl _ this)
      · exact ⟨i, by rw [hmm, h1], h4, h3⟩

/-- Witness for C1 at the initial state with depth 2. -/
theorem C1_minimax_decision_spec_witness :
    terminal_test GameState.init = false ∧ (0 : Int) < 2 ∧
    ∃ i : Fin GameState.init.get_legal_moves.length,
      minimax_decision GameState.init 2 = some (GameState.init.get_legal_moves.get i) :=
  ⟨by decide, by decide,
    match (C1_minimax_decision_spec GameState.init 2).2 (by decide) (by decide) with
    | ⟨_, i, h1, _, _⟩ => ⟨i, h1⟩⟩

/-- **C2**: `min_value`/`max_value` defining behaviour for every state and
integer depth — `+1`/`−1` on terminal states, `0` at the `depth ≤ 0` cutoff,
and otherwise exactly the minimum (resp. maximum) over the legal moves of the
opposite evaluator applied to the forecast child at `depth − 1`: the value is
a lower (resp. upper) bound of all child values and is attained by some legal
move.  (The embedding is pure, so neither function can mutate `s`.) -/
theorem C2_min_max_value_spec (s : GameState) (d : Int) :
    (terminal_test s = true → min_value s d = iv 1 ∧ max_value s d = iv (-1)) ∧
    (terminal_test s = false → d ≤ 0 → min_value s d = iv 0 ∧ max_value s d = iv 0) ∧
    (terminal_test s = false → 0 < d →
      (∀ m ∈ s.get_legal_moves, s.forecast_move m = .ok (s.apply_move m)) ∧
      (∀ m ∈ s.get_legal_moves, min_value s d ≤ max_value (s.apply_move m) (d - 1)) ∧
      (∃ m ∈ s.get_legal_moves, min_value s d = max_value (s.apply_move m) (d - 1)) ∧
      (∀ m ∈ s.get_legal_moves, min_value (s.apply_move m) (d - 1) ≤ max_value s d) ∧
      (∃ m ∈ s.get_legal_moves, max_value s d = min_value (s.apply_move m) (d - 1))) := by
  refine ⟨?_, ?_, ?_⟩
  · intro ht
    constructor
    · rw [min_value, if_pos ht]
    · rw [max_value, if_pos ht]
  · intro ht hd0
    have hti : ¬ (terminal_test s = true) := by simp [ht]
    constructor
    · rw [min_value, if_neg hti, if_pos hd0]
    · rw [max_value, if_neg hti, if_pos hd0]
  · intro ht hd
    exact ⟨fun m hm => forecast_move_ok_iff.2 ⟨hm, rfl⟩,
      min_value_le ht hd, min_value_attained ht hd,
      max_value_ge ht hd, max_value_attained ht hd⟩

/-- Witness for C2 at the initial state with depth 1. -/
theorem C2_min_max_value_spec_witness :
    terminal_test GameState.init = false ∧ (0 : Int) < 1 ∧
    (∃ m ∈ GameState.init.get_legal_moves,
      min_value GameState.init 1 = max_value (GameState.init.apply_move m) 0) :=
  ⟨by decide, by decide,
    ((C2_min_max_value_spec GameState.init 1).2.2 (by decide) (by decide)).2.2.1⟩

/-- **C3**: `get_legal_moves` refines the spec's description: for an unplaced
active player it is exactly the spec's row-major enumeration of the open
cells, and for a placed player exactly the spec's eight ray enumerations
(each ray in increasing distance, cut at the first blocked or off-board
cell, rays in the spec's fixed order).  The embedding is pure, so the call
cannot mutate the state. -/
theorem C3_get_legal_moves_refines_spec (s : GameState) :
    (s.player_locations.getD s.active_player none = none →
      s.get_legal_moves = specUnplacedMoves s.board) ∧
    (∀ loc : Move, s.player_locations.getD s.active_player none = some loc →
      s.get_legal_moves = specPlacedMoves s.board loc) :=
  ⟨fun h => get_legal_moves_eq_spec_unplaced h,
   fun _ h => get_legal_moves_eq_spec_placed h⟩

/-- Witness for C3: the unplaced initial state, and a state with the active
player placed at `(0, 0)`. -/
theorem C3_get_legal_moves_refines_spec_witness :
    (GameState.init.player_locations.getD GameState.init.active_player none = none ∧
      GameState.init.get_legal_moves = specUnplacedMoves GameState.init.board) ∧
    (let s1 : GameState :=
      { board := GameState.init.board, active_player := 0
        player_locations := [some (0, 0), none] }
     s1.player_locations.getD s1.active_player none = some (0, 0) ∧
      s1.get_legal_moves = specPlacedMoves s1.board (0, 0)) :=
  ⟨⟨rfl, (C3_get_legal_moves_refines_spec GameState.init).1 rfl⟩,
   ⟨rfl, (C3_get_legal_moves_refines_spec _).2 (0, 0) rfl⟩⟩

/-- **C4**: frame property of `forecast_move` on a legal move `m` of a
well-formed state: the call succeeds with a new state whose board is the old
board with exactly the cell `m` newly blocked (that cell was open, is now
`1`, every other board cell is unchanged and the blocked-cell count rises by
exactly one), whose location slot for the pre-move active player is `m`,
whose other slot is unchanged, and whose `active_player` is the other
player.  The parent state is untouched (the embedding is pure: `s` itself
appears unchanged on the right-hand sides). -/
theorem C4_forecast_move_frame (s : GameState) (m : Move)
    (hwf : StateWF s) (hm : m ∈ s.get_legal_moves) :
    s.forecast_move m = .ok (s.apply_move m) ∧
    boardAt s.board m.1 m.2 = 0 ∧
    boardAt (s.apply_move m).board m.1 m.2 = 1 ∧
    (∀ c : Move, onBoard c → c ≠ m →
      boardAt (s.apply_move m).board c.1 c.2 = boardAt s.board c.1 c.2) ∧
    countBlocked (s.apply_move m).board = countBlocked s.board + 1 ∧
    (s.apply_move m).player_locations.getD s.active_player none = some m ∧
    (s.apply_move m).player_locations.getD (1 - s.active_player) none
      = s.player_locations.getD (1 - s.active_player) none ∧
    (s.apply_move m).active_player = 1 - s.active_player := by
  obtain ⟨hlen, hcols, hap, hloclen⟩ := hwf
  obtain ⟨hob, hopen⟩ := legal_moves_mem hm
  have hob' : 0 ≤ m.1 ∧ m.1 < xlim ∧ 0 ≤ m.2 ∧ m.2 < ylim := hob
  obtain ⟨h1, h2, h3, h4⟩ := hob'
  unfold xlim at h2
  unfold ylim at h4
  have hx : m.1.toNat < s.board.length := by omega
  have hy : m.2.toNat < (s.board.getD m.1.toNat []).length := by
    have : (s.board.getD m.1.toNat []).length = 2 := by
      apply hcols
      rw [List.getD_eq_getElem _ _ hx]
      exact List.getElem_mem hx
    omega
  refine ⟨forecast_move_ok_iff.2 ⟨hm, rfl⟩, hopen, ?_, ?_, ?_, ?_, ?_, ?_⟩
  · exact boardAt_boardSet_same hx hy
  · intro c hcob hcm
    have hcob' : 0 ≤ c.1 ∧ c.1 < xlim ∧ 0 ≤ c.2 ∧ c.2 < ylim := hcob
    obtain ⟨g1, g2, g3, g4⟩ := hcob'
    unfold xlim at g2
    unfold ylim at g4
    apply boardAt_boardSet_other
    by_contra hcon
    push_neg at hcon
    apply hcm
    obtain ⟨ca, cb⟩ := c
    obtain ⟨ma, mb⟩ := m
    simp only [Prod.mk.injEq]
    simp only at g1 g2 g3 g4 h1 h2 h3 h4 hcon
    constructor <;> omega
  · exact countBlocked_boardSet hlen hcols hob hopen
  · show (s.player_locations.set s.active_player (some m)).getD s.active_player none = some m
    rw [List.getD_eq_getElem?_getD, List.getElem?_set_self (by omega)]
    rfl
  · show (s.player_locations.set s.active_player (some m)).getD (1 - s.active_player) none
      = s.player_locations.getD (1 - s.active_player) none
    rw [List.getD_eq_getElem?_getD, List.getElem?_set_ne (by omega),
      List.getD_eq_getElem?_getD]
  · show s.active_player ^^^ 1 = 1 - s.active_player
    interval_cases h : s.active_player <;> decide

/-- Witness for C4 at the initial state with the legal move `(0, 0)`. -/
theorem C4_forecast_move_frame_witness :
    StateWF GameState.init ∧ (0, 0) ∈ GameState.init.get_legal_moves ∧
    countBlocked (GameState.init.apply_move (0, 0)).board
      = countBlocked GameState.init.board + 1 :=
  ⟨by decide, by decide,
    ((C4_forecast_move_frame GameState.init (0, 0) (by decide) (by decide)).2.2.2.2).1⟩

/-- **C5**: `forecast_move` fails with the `IllegalMoveError` (the raised
`RuntimeError`) exactly on coordinates that are not in `get_legal_moves` —
in particular on every off-board coordinate and every on-board-but-blocked
cell — and succeeds exactly on legal moves; the parent state appears
unchanged in the result (the embedding is pure). -/
theorem C5_forecast_move_error (s : GameState) (m : Move) :
    (s.forecast_move m = .error "Attempted forecast of illegal move" ↔
      m ∉ s.get_legal_moves) ∧
    ((¬ onBoard m ∨ boardAt s.board m.1 m.2 ≠ 0) →
      s.forecast_move m = .error "Attempted forecast of illegal move") ∧
    (∀ t : GameState, s.forecast_move m = .ok t ↔
      m ∈ s.get_legal_moves ∧ t = s.apply_move m) := by
  refine ⟨forecast_move_error_iff, ?_, fun t => forecast_move_ok_iff⟩
  intro hbad
  apply forecast_move_error_iff.2
  intro hmem
  obtain ⟨hob, hopen⟩ := legal_moves_mem hmem
  rcases hbad with h | h
  · exact h hob
  · exact h hopen

/-- Witness for C5: an off-board coordinate and an on-board blocked cell both
fail on the initial state. -/
theorem C5_forecast_move_error_witness :
    (¬ onBoard ((5 : Int), (7 : Int)) ∧
      GameState.init.forecast_move (5, 7)
        = .error "Attempted forecast of illegal move") ∧
    (boardAt GameState.init.board 2 1 ≠ 0 ∧
      GameState.init.forecast_move (2, 1)
        = .error "Attempted forecast of illegal move") :=
  ⟨⟨by decide, (C5_forecast_move_error GameState.init (5, 7)).2.1 (.inl (by decide))⟩,
   ⟨by decide, (C5_forecast_move_error GameState.init (2, 1)).2.1 (.inr (by decide))⟩⟩

/-- **C6 (counterexample)**: the claim asserts that after `forecast_move((0,0))`
the new state's `get_legal_moves()` is the ray-order sequence
`(1,0),(2,0),(1,1),(0,1)`; the code returns `(1,0),(2,0),(0,1),(1,1)`
instead (player 1 is still unplaced, so the list is the row-major blank-space
enumeration, and even the ray walk from `(0,0)` would put `(0,1)` before
`(1,1)` in the source's ray order). -/
theorem C6_scenario_counterexample :
    GameState.init.forecast_move (0, 0) = .ok (GameState.init.apply_move (0, 0)) ∧
    (GameState.init.apply_move (0, 0)).get_legal_moves
      ≠ [(1, 0), (2, 0), (1, 1), (0, 1)] ∧
    (GameState.init.apply_move (0, 0)).get_legal_moves
      = [(1, 0), (2, 0), (0, 1), (1, 1)] := by
  refine ⟨rfl, by decide, by decide⟩

/-- **C6 (amended)**: the concrete scenario with the enumeration order the
code actually produces: the initial `get_legal_moves()` lists the 5 open
cells row-major; after `forecast_move((0,0))` player 0 is at `(0,0)`, the
cells `(0,0)` and `(2,1)` are blocked (and only those two), the active
player is 1, and — player 1 being unplaced — `get_legal_moves()` returns the
open cells in row-major order `(1,0),(2,0),(0,1),(1,1)`. -/
theorem C6_scenario :
    GameState.init.get_legal_moves = [(0, 0), (1, 0), (2, 0), (0, 1), (1, 1)] ∧
    GameState.init.forecast_move (0, 0) = .ok (GameState.init.apply_move (0, 0)) ∧
    (GameState.init.apply_move (0, 0)).player_locations = [some (0, 0), none] ∧
    (GameState.init.apply_move (0, 0)).active_player = 1 ∧
    boardAt (GameState.init.apply_move (0, 0)).board 0 0 ≠ 0 ∧
    boardAt (GameState.init.apply_move (0, 0)).board 2 1 ≠ 0 ∧
    countBlocked (GameState.init.apply_move (0, 0)).board = 2 ∧
    (GameState.init.apply_move (0, 0)).get_legal_moves
      = [(1, 0), (2, 0), (0, 1), (1, 1)] := by
  refine ⟨by decide, rfl, by decide, by decide, by decide, by decide, by decide,
    by decide⟩

/-- **C7**: in every state reachable from the initial state by (successful)
`forecast_move` applications, each placed player's current location is
blocked on the board; blocked cells stay blocked along the rest of the line
of play (monotonicity); and hence every cell either player ever occupied in
an ancestor state is still blocked. -/
theorem C7_reachable_invariants (s : GameState) (h : ReachableFrom GameState.init s) :
    (∀ p : Nat, p < 2 → ∀ loc : Move, s.player_locations.getD p none = some loc →
      boardAt s.board loc.1 loc.2 ≠ 0) ∧
    (∀ t : GameState, ReachableFrom GameState.init t → ReachableFrom t s →
      (∀ x y : Int, boardAt t.board x y ≠ 0 → boardAt s.board x y ≠ 0) ∧
      (∀ p : Nat, p < 2 → ∀ loc : Move, t.player_locations.getD p none = some loc →
        boardAt s.board loc.1 loc.2 ≠ 0)) := by
  refine ⟨(reachable_invariant h).2, ?_⟩
  intro t ht hts
  refine ⟨reachableFrom_board_mono hts, ?_⟩
  intro p hp loc hloc
  exact reachableFrom_board_mono hts loc.1 loc.2
    ((reachable_invariant ht).2 p hp loc hloc)

/-- Witness for C7: after playing `(0, 0)` from the initial state, the mover's
cell `(0, 0)` is blocked. -/
theorem C7_reachable_invariants_witness :
    boardAt (GameState.init.apply_move (0, 0)).board 0 0 ≠ 0 :=
  (C7_reachable_invariants (GameState.init.apply_move (0, 0))
    (ReachableFrom.step (0, 0) (ReachableFrom.refl _) rfl)).1 0 (by omega) (0, 0) rfl

/-- **C8**: for every state and every integer depth, `min_value` and
`max_value` return one of the three finite scores `−1, 0, +1`; in particular
the `±inf` fold sentinels (`⊥`/`⊤` here) never escape. -/
theorem C8_values_in_range (s : GameState) (d : Int) :
    (min_value s d = iv (-1) ∨ min_value s d = iv 0 ∨ min_value s d = iv 1) ∧
    (max_value s d = iv (-1) ∨ max_value s d = iv 0 ∨ max_value s d = iv 1) ∧
    min_value s d ≠ ⊥ ∧ min_value s d ≠ ⊤ ∧ max_value s d ≠ ⊥ ∧ max_value s d ≠ ⊤ := by
  have h1 := min_value_isScore s d
  have h2 := max_value_isScore s d
  have b1 := isScore_bounds h1
  have b2 := isScore_bounds h2
  exact ⟨h1, h2, b1.1.ne', b1.2.ne, b2.1.ne', b2.2.ne⟩

/-- **C9**: the mutually recursive search terminates with `depth` as the sole
resource bound: a terminal state returns immediately at any depth, a
non-positive depth returns 0 immediately, and the fuel-indexed variants
(`min_valueF`/`max_valueF`), which spend exactly one unit of fuel per ply and
recurse at `depth − 1`, compute the exact values whenever the fuel exceeds
`depth` — i.e. the recursion depth is bounded by `depth` itself. -/
theorem C9_search_terminates (s : GameState) (d : Int) :
    (terminal_test s = true → min_value s d = iv 1 ∧ max_value s d = iv (-1)) ∧
    (terminal_test s = false → d ≤ 0 → min_value s d = iv 0 ∧ max_value s d = iv 0) ∧
    (∀ n : Nat, d.toNat < n →
      min_valueF n s d = some (min_value s d) ∧
      max_valueF n s d = some (max_value s d)) := by
  refine ⟨?_, ?_, fun n hn => valueF_eq n s d hn⟩
  · intro ht
    constructor
    · rw [min_value, if_pos ht]
    · rw [max_value, if_pos ht]
  · intro ht hd0
    have hti : ¬ (terminal_test s = true) := by simp [ht]
    constructor
    · rw [min_value, if_neg hti, if_pos hd0]
    · rw [max_value, if_neg hti, if_pos hd0]

/-- Witness for C9: fuel 4 computes the depth-3 value at the initial state. -/
theorem C9_search_terminates_witness :
    (3 : Int).toNat < 4 ∧
    min_valueF 4 GameState.init 3 = some (min_value GameState.init 3) :=
  ⟨by decide, ((C9_search_terminates GameState.init 3).2.2 4 (by decide)).1⟩

/-- **C10**: whenever the active player is placed, `get_legal_moves` has no
duplicate coordinates and never contains the player's current position: the
eight rays from one origin are pairwise disjoint and each stays at distance
at least one from the origin. -/
theorem C10_legal_moves_nodup (s : GameState) (loc : Move)
    (h : s.player_locations.getD s.active_player none = some loc) :
    s.get_legal_moves.Nodup ∧ loc ∉ s.get_legal_moves := by
  have hleg : s.get_legal_moves
      = rays.flatMap fun d => walkRay s.board d.1 d.2 loc.1 loc.2 (xlim + ylim).toNat := by
    unfold GameState.get_legal_moves
    rw [h]
  have hznz : ∀ d ∈ rays, ¬(d.1 = 0 ∧ d.2 = 0) := by decide
  constructor
  · rw [hleg]
    apply List.nodup_flatMap.2
    refine ⟨fun d hd => walkRay_nodup (hznz d hd) _ _ _, ?_⟩
    have hpair : rays.Pairwise (fun d e =>
        (-1 ≤ d.1 ∧ d.1 ≤ 1 ∧ -1 ≤ d.2 ∧ d.2 ≤ 1) ∧
        (-1 ≤ e.1 ∧ e.1 ≤ 1 ∧ -1 ≤ e.2 ∧ e.2 ≤ 1) ∧
        ¬(d.1 = 0 ∧ d.2 = 0) ∧ ¬(e.1 = 0 ∧ e.2 = 0) ∧
        ¬(d.1 = e.1 ∧ d.2 = e.2)) := by decide
    exact hpair.imp fun hde =>
      walkRay_disjoint hde.1 hde.2.1 hde.2.2.1 hde.2.2.2.1 hde.2.2.2.2
  · rw [hleg]
    intro hmem
    obtain ⟨d, hd, hw⟩ := List.mem_flatMap.1 hmem
    exact walkRay_not_start (hznz d hd) _ loc.1 loc.2 hw

/-- Witness for C10: a state with the active player placed at `(0, 0)`. -/
theorem C10_legal_moves_nodup_witness :
    (let s1 : GameState :=
      { board := GameState.init.board, active_player := 0
        player_locations := [some (0, 0), none] }
     s1.get_legal_moves.Nodup ∧ (0, 0) ∉ s1.get_legal_moves) :=
  C10_legal_moves_nodup _ (0, 0) rfl
